import Mathlib

/-!
Shallow embedding, in Lean 4, of the core data structures and operations of
the hkl diffractometer library (geometry, holders, geometry lists, lattice,
and the q pseudo-axis engine), together with proofs and refutations of the
specified properties.

Numeric doubles are modelled by real numbers.  Fallible C functions are
modelled with `Option` / a returned flag, exactly following the control flow
of the C source.  Components whose C source is not part of this tree (the
parameter kernel `hkl-parameter.c` / `hkl-axis.c`, the vector/quaternion
kernel, the numeric solver) are modelled from the specification; every such
definition carries a doc comment starting with `Modelled from the spec:`.
-/

namespace Hkl

open Real Classical

/-- Modelled from the spec: `HKL_EPSILON`, the library-wide tolerance
(`hkl-macros-private.h`, not under `src/`); the hkl library uses `1E-6`. -/
def HKL_EPSILON : ℝ := 1e-6

/-- `HKL_TAU` from `hkl.h`: `τ = 2π`. -/
noncomputable def HKL_TAU : ℝ := 2 * Real.pi

/-! ## Vector kernel -/

/-- `HklVector` (`hkl-vector-private.h`): a 3-vector of doubles. -/
structure HklVector where
  x : ℝ
  y : ℝ
  z : ℝ

/-- Modelled from the spec: `hkl_vector_scalar_product`
(`hkl-vector.c` is not under `src/`). -/
def hkl_vector_scalar_product (u v : HklVector) : ℝ :=
  u.x * v.x + u.y * v.y + u.z * v.z

/-- Modelled from the spec: `hkl_vector_norm2`, the euclidean norm. -/
noncomputable def hkl_vector_norm2 (u : HklVector) : ℝ :=
  Real.sqrt (hkl_vector_scalar_product u u)

/-- Modelled from the spec: `hkl_vector_angle`, the angle between two
vectors, `arccos` of the normalized scalar product. -/
noncomputable def hkl_vector_angle (u v : HklVector) : ℝ :=
  Real.arccos (hkl_vector_scalar_product u v /
    (hkl_vector_norm2 u * hkl_vector_norm2 v))

/-! ## Quaternion kernel -/

/-- `HklQuaternion` (`hkl-quaternion-private.h`): `data = {a, b, c, d}` with
`a` the real part. -/
structure HklQuaternion where
  a : ℝ
  b : ℝ
  c : ℝ
  d : ℝ

/-- The unit quaternion `q0 = {{1, 0, 0, 0}}` used by
`hkl_holder_new` / `hkl_holder_update`. -/
def q0 : HklQuaternion := ⟨1, 0, 0, 0⟩

/-- Modelled from the spec: `hkl_quaternion_times_quaternion`
(`hkl-quaternion.c` is not under `src/`), the Hamilton product. -/
def hkl_quaternion_times_quaternion (p q : HklQuaternion) : HklQuaternion :=
  ⟨p.a * q.a - p.b * q.b - p.c * q.c - p.d * q.d,
   p.a * q.b + p.b * q.a + p.c * q.d - p.d * q.c,
   p.a * q.c - p.b * q.d + p.c * q.a + p.d * q.b,
   p.a * q.d + p.b * q.c - p.c * q.b + p.d * q.a⟩

/-! ## Parameter -/

/-- The geometric transformation carried by an `HklParameter`
(`hkl-parameter-private.h`): a rotation around `axis_v`, a translation along
`axis_v`, or a plain scalar. -/
inductive HklParameterType where
  | rotation (axis_v : HklVector)
  | translation (axis_v : HklVector)
  | plain

/-- `HklParameter` (`hkl-parameter-private.h`): a named bounded scalar with
an optional geometric transformation.  `_value`, `min`, `max` are in the
default (internal) unit. -/
structure HklParameter where
  name : String
  _value : ℝ
  min : ℝ
  max : ℝ
  type : HklParameterType

/-- Whether a parameter is a rotation axis. -/
def isRotationAxis (p : HklParameter) : Bool :=
  match p.type with
  | .rotation _ => true
  | _ => false

/-- Modelled from the spec: `hkl_parameter_quaternion_get`
(`hkl-axis.c` is not under `src/`): rotations expose the quaternion
`(cos(v/2), sin(v/2)·axis_v)`, every other kind exposes nothing.  Pinned by
`tests/hkl-axis-t.c` (`get_quaternions`): a rotation around `(1,0,0)` with
value `-π/2` has quaternion `(√½, -√½, 0, 0)`. -/
noncomputable def hkl_parameter_quaternion_get (p : HklParameter) : Option HklQuaternion :=
  match p.type with
  | .rotation v =>
      some ⟨Real.cos (p._value / 2),
            Real.sin (p._value / 2) * v.x,
            Real.sin (p._value / 2) * v.y,
            Real.sin (p._value / 2) * v.z⟩
  | _ => none

/-! ## Holder -/

/-- `hkl_holder_update` (`hkl-geometry.c:169`): recompute the holder's
cached cumulative quaternion.  The holder is given here as its resolved,
ordered list of parameters (the C code looks each `config->idx[i]` up in the
owning geometry).  Note the C loop `continue`s on parameters without a
quaternion: non-rotations are skipped, not accumulation-terminating. -/
noncomputable def hkl_holder_update (axes : List HklParameter) : HklQuaternion :=
  axes.foldl
    (fun q p =>
      match hkl_parameter_quaternion_get p with
      | none => q
      | some qp => hkl_quaternion_times_quaternion q qp)
    q0

/-- The behaviour documented by the in-source comment of
`hkl_holder_update` ("we stop this computation at the first non rotation
axis") and by the spec: the quaternion product over the parameters before
the first non-rotation. -/
noncomputable def hkl_holder_update_documented (axes : List HklParameter) : HklQuaternion :=
  (axes.takeWhile (fun p => isRotationAxis p)).foldl
    (fun q p =>
      match hkl_parameter_quaternion_get p with
      | none => q
      | some qp => hkl_quaternion_times_quaternion q qp)
    q0

/-! ## Geometry -/

/-- `HklGeometry` (`hkl-geometry-private.h`), restricted to the state the
geometry-level operations below read and write: the source wavelength and
the ordered axis list. -/
structure HklGeometry where
  wave_length : ℝ
  axes : List HklParameter

/-- `hkl_geometry_wavelength_get` (`hkl-geometry.c:503`): returns the
stored wavelength (no unit conversion is performed). -/
def hkl_geometry_wavelength_get (self : HklGeometry) : ℝ :=
  self.wave_length

/-- `hkl_geometry_wavelength_set` (`hkl-geometry.c:523`): stores the
wavelength and returns TRUE; the C function performs no validation. -/
def hkl_geometry_wavelength_set (self : HklGeometry) (wavelength : ℝ) :
    Bool × HklGeometry :=
  (true, { self with wave_length := wavelength })

/-- `hkl_geometry_distance` (`hkl-geometry.c:767`): the sum over axes of
`|value2 - value1|`. -/
def hkl_geometry_distance (self ref : HklGeometry) : ℝ :=
  (List.zipWith (fun p q => |q._value - p._value|) self.axes ref.axes).sum

/-- Modelled from the spec: `gsl_sf_angle_restrict_symm` forces an angle
into the symmetric range `(-π, π]` (the GSL convention): the unique
representative of `d` modulo 2π inside that half-open interval,
`d - 2π·⌈d/(2π) - 1/2⌉`. -/
noncomputable def angle_restrict_symm (d : ℝ) : ℝ :=
  d - 2 * Real.pi * ⌈d / (2 * Real.pi) - 1 / 2⌉

/-- Modelled from the spec: `hkl_parameter_orthodromic_distance_get`
(`hkl-parameter.c` is not under `src/`): rotations wrap to the shortest arc
modulo 2π, any other kind uses the linear distance. -/
noncomputable def hkl_parameter_orthodromic_distance_get
    (p : HklParameter) (value : ℝ) : ℝ :=
  match p.type with
  | .rotation _ => |angle_restrict_symm (value - p._value)|
  | _ => |value - p._value|

/-- `hkl_geometry_distance_orthodromic` (`hkl-geometry.c:790`): the sum
over axes of the per-parameter orthodromic distances. -/
noncomputable def hkl_geometry_distance_orthodromic (self ref : HklGeometry) : ℝ :=
  (List.zipWith (fun p q => hkl_parameter_orthodromic_distance_get p q._value)
    self.axes ref.axes).sum

/-! ## Geometry list -/

/-- `hkl_geometry_list_add` (`hkl-geometry.c:1089`): skip the insertion if
some item of the list is at orthodromic distance `< HKL_EPSILON` from the
incoming geometry, otherwise append a copy at the tail. -/
noncomputable def hkl_geometry_list_add
    (items : List HklGeometry) (geometry : HklGeometry) : List HklGeometry :=
  if ∃ item ∈ items,
      hkl_geometry_distance_orthodromic geometry item < HKL_EPSILON then
    items
  else
    items ++ [geometry]

/-- Modelled from the spec: `hkl_parameter_is_permutable`
(`hkl-parameter.c` is not under `src/`): a parameter is permutable iff it is
a rotation whose legal range spans more than 2π (spec §4.6 step 5 and
glossary). -/
def hkl_parameter_is_permutable (p : HklParameter) : Prop :=
  isRotationAxis p = true ∧ 2 * Real.pi < p.max - p.min

/-- Modelled from the spec: `hkl_parameter_value_set_smallest_in_range`
(`hkl-axis.c` is not under `src/`): lift the value into `[min, min + 2π)`.
Pinned by `tests/hkl-axis-t.c` (`set_value_smallest_in_range`): with range
`[-190°, 190°]`, `185° ↦ -175°`, `545° ↦ -175°`, `-185° ↦ -185°`,
`175° ↦ -185°`, `190° ↦ -170°`, `-190° ↦ -190°`. -/
noncomputable def hkl_parameter_value_set_smallest_in_range
    (p : HklParameter) : HklParameter :=
  { p with _value := p._value - 2 * Real.pi * ⌊(p._value - p.min) / (2 * Real.pi)⌋ }

/-- The number of extra 2π steps the `do … while(value <= max + HKL_EPSILON)`
loop of `perm_r` (`hkl-geometry.c:1281`) takes above the starting value. -/
noncomputable def perm_steps (p : HklParameter) : ℕ :=
  (⌊(p.max + HKL_EPSILON - p._value) / (2 * Real.pi)⌋).toNat

/-- The values enumerated for one permutable axis by `perm_r`: the current
value and each 2π shift up to `max + HKL_EPSILON`. -/
noncomputable def perm_values (p : HklParameter) : List ℝ :=
  (List.range (perm_steps p + 1)).map
    (fun k : ℕ => p._value + 2 * Real.pi * (k : ℝ))

/-- The recursion of `perm_r` (`hkl-geometry.c:1281`) over the axis list:
all combinations of axis values in which each permutable axis successively
takes each of its `perm_values`, every other axis keeps its value. -/
noncomputable def perm_r_values : List HklParameter → List (List ℝ)
  | [] => [[]]
  | p :: rest =>
      if hkl_parameter_is_permutable p then
        (perm_values p).flatMap (fun v => (perm_r_values rest).map (fun vs => v :: vs))
      else
        (perm_r_values rest).map (fun vs => p._value :: vs)

/-- Overwrite the axis values of a geometry with the given value list
(the leaf of `perm_r` snapshots the working geometry). -/
def set_axes_values (g : HklGeometry) (values : List ℝ) : HklGeometry :=
  { g with axes := List.zipWith (fun p v => { p with _value := v }) g.axes values }

/-- The solutions `perm_r` generates from one item of the list
(`hkl-geometry.c:1323`, body of `hkl_geometry_list_multiply_from_range`):
permutable axes of a copy are first lifted to their smallest-in-range
representative, then every combination of 2π shifts whose plain distance
from the original item exceeds `HKL_EPSILON` is appended. -/
noncomputable def multiply_from_range_item (item : HklGeometry) : List HklGeometry :=
  let geometry : HklGeometry :=
    { item with
      axes := item.axes.map (fun p =>
        if hkl_parameter_is_permutable p then
          hkl_parameter_value_set_smallest_in_range p
        else p) }
  (perm_r_values geometry.axes).filterMap (fun vs =>
    let g := set_axes_values geometry vs
    if HKL_EPSILON < hkl_geometry_distance g item then some g else none)

/-- `hkl_geometry_list_multiply_from_range` (`hkl-geometry.c:1323`): for
each of the first `n_items` items, append the `perm_r` solutions at the
tail of the list.  Note the appended items are NOT passed through
`hkl_geometry_list_add`: no orthodromic de-duplication happens here. -/
noncomputable def hkl_geometry_list_multiply_from_range
    (items : List HklGeometry) : List HklGeometry :=
  items ++ items.flatMap multiply_from_range_item

/-- `hkl_geometry_is_valid_range` (`hkl-geometry.c:833`), with the
per-parameter check modelled from the spec: every axis value must have a
2π-representative inside `[min, max]` (rotations) or lie in `[min, max]`
(other kinds). -/
noncomputable def hkl_geometry_is_valid_range (self : HklGeometry) : Prop :=
  ∀ p ∈ self.axes,
    match p.type with
    | .rotation _ => ∃ k : ℤ, p.min ≤ p._value + 2 * Real.pi * k ∧
        p._value + 2 * Real.pi * k ≤ p.max
    | _ => p.min ≤ p._value ∧ p._value ≤ p.max

/-- `hkl_geometry_list_remove_invalid` (`hkl-geometry.c:1361`). -/
noncomputable def hkl_geometry_list_remove_invalid
    (items : List HklGeometry) : List HklGeometry :=
  items.filter (fun g => hkl_geometry_is_valid_range g)

/-- The inner scan-and-insert step of `hkl_geometry_list_sort`
(`hkl-geometry.c:1175`): the index being placed moves past exactly those
already-sorted items with `distances[idx[p]] < distances[x]` AND
`fabs(distances[idx[p]] - distances[x]) > HKL_EPSILON`, and is inserted
before the first item failing that test. -/
noncomputable def geometry_list_sort_insert
    (distance : HklGeometry → ℝ) (x : HklGeometry) :
    List HklGeometry → List HklGeometry
  | [] => [x]
  | y :: ys =>
      if distance y < distance x ∧ |distance y - distance x| > HKL_EPSILON then
        y :: geometry_list_sort_insert distance x ys
      else
        x :: y :: ys

/-- `hkl_geometry_list_sort` (`hkl-geometry.c:1175`): insertion sort of the
items by their (precomputed) `hkl_geometry_distance` from `ref`, processing
the items in list order. -/
noncomputable def hkl_geometry_list_sort
    (items : List HklGeometry) (ref : HklGeometry) : List HklGeometry :=
  items.foldl
    (fun acc item =>
      geometry_list_sort_insert (fun g => hkl_geometry_distance ref g) item acc)
    []

/-! ## Closest-value lift -/

/-- Modelled from the spec: `hkl_parameter_value_get_closest`
(`hkl-axis.c` is not under `src/`): for a rotation, among the 2π-equivalent
representatives of the parameter's OWN value that lie inside its
`[min, max]`, the one nearest to the reference parameter's value, `none`
(NaN in C) when no representative is in range; for any other kind the
parameter's own value.  Pinned by `tests/hkl-axis-t.c` (`get_value_closest`):
value `100°`, range `[-270°, 180°]`, reference `-75° ↦ 100°` and
reference `-85° ↦ -260°`. -/
noncomputable def hkl_parameter_value_get_closest
    (p ref : HklParameter) : Option ℝ :=
  match p.type with
  | .rotation _ =>
      let kmin : ℤ := ⌈(p.min - p._value) / (2 * Real.pi)⌉
      let kmax : ℤ := ⌊(p.max - p._value) / (2 * Real.pi)⌋
      if kmax < kmin then none
      else some (p._value + 2 * Real.pi *
        (max kmin (min kmax (round ((ref._value - p._value) / (2 * Real.pi))))))
  | _ => some p._value

/-- `hkl_geometry_closest_from_geometry_with_range`
(`hkl-geometry.c:855`): compute the per-axis closest values first; if any
is NaN, return `ko = TRUE` touching nothing, otherwise write all the values
and return `ko = FALSE`. -/
noncomputable def hkl_geometry_closest_from_geometry_with_range
    (self ref : HklGeometry) : Bool × HklGeometry :=
  let values := List.zipWith hkl_parameter_value_get_closest self.axes ref.axes
  if none ∈ values then
    (true, self)
  else
    (false,
     { self with
       axes := List.zipWith (fun p v => { p with _value := v.getD p._value })
         self.axes values })

/-! ## Axis insertion -/

/-- Modelled from the spec: `hkl_parameter_transformation_cmp`
(`hkl-parameter.c` is not under `src/`): two parameters are
transformation-compatible iff they have the same kind and exactly equal
`axis_v` (and origin); the C function returns non-zero when they differ.
Pinned by `tests/hkl-axis-t.c` (`transformation_cmp`). -/
noncomputable def hkl_parameter_transformation_cmp
    (p q : HklParameter) : Bool :=
  if p.type = q.type then false else true

/-- The scan loop of `hkl_geometry_add_axis` (`hkl-geometry.c:54`),
walking the axis list with a running index. -/
noncomputable def add_axis_go (axes : List HklParameter) (axis : HklParameter) :
    List HklParameter → ℕ → Option (ℕ × List HklParameter)
  | [], _ => some (axes.length, axes ++ [axis])
  | p :: rest, i =>
      if p.name = axis.name then
        if hkl_parameter_transformation_cmp p axis then
          none
        else
          some (i, axes)
      else
        add_axis_go axes axis rest (i + 1)

/-- `hkl_geometry_add_axis` (`hkl-geometry.c:54`): return the index of an
existing axis with the same name when the transformations are compatible,
die (`exit(128)`, modelled as `none`) when the name matches but the
transformation differs, and otherwise append a copy, returning the new
index and list. -/
noncomputable def hkl_geometry_add_axis
    (axes : List HklParameter) (axis : HklParameter) :
    Option (ℕ × List HklParameter) :=
  add_axis_go axes axis axes 0

/-! ## Lattice -/

/-- The discriminant `D = 1 - cos²α - cos²β - cos²γ + 2·cosα·cosβ·cosγ`
computed by `check_lattice_param` (`hkl-geometry.c:1726`),
`hkl_lattice_get_B` (`hkl-geometry.c:2282`) and `hkl_lattice_reciprocal`. -/
noncomputable def latticeD (alpha beta gamma : ℝ) : ℝ :=
  1 - Real.cos alpha * Real.cos alpha - Real.cos beta * Real.cos beta
    - Real.cos gamma * Real.cos gamma
    + 2 * Real.cos alpha * Real.cos beta * Real.cos gamma

/-- `check_lattice_param` (`hkl-geometry.c:1726`): fail (degenerate-lattice
error) when `D < 0.`, otherwise return the volume `a·b·c·√D`. -/
noncomputable def check_lattice_param
    (a b c alpha beta gamma : ℝ) : Option ℝ :=
  if latticeD alpha beta gamma < 0 then none
  else some (a * b * c * Real.sqrt (latticeD alpha beta gamma))

/-- `hkl_lattice_get_B` (`hkl-geometry.c:2282`): the upper-triangular B
matrix; returns FALSE (here `none`) unless `D > 0.`. -/
noncomputable def hkl_lattice_get_B (a b c alpha beta gamma : ℝ) :
    Option (Matrix (Fin 3) (Fin 3) ℝ) :=
  if 0 < latticeD alpha beta gamma then
    let Ds := Real.sqrt (latticeD alpha beta gamma)
    let c_alpha := Real.cos alpha
    let c_beta := Real.cos beta
    let c_gamma := Real.cos gamma
    let s_alpha := Real.sin alpha
    let s_beta := Real.sin beta
    let s_gamma := Real.sin gamma
    let b11 := HKL_TAU / (b * s_alpha)
    let b22 := HKL_TAU / c
    let tmp := b22 / s_alpha
    some !![HKL_TAU * s_alpha / (a * Ds),
            b11 / Ds * (c_alpha * c_beta - c_gamma),
            tmp / Ds * (c_gamma * c_alpha - c_beta);
            0, b11, tmp / (s_beta * s_gamma) * (c_beta * c_gamma - c_alpha);
            0, 0, b22]
  else none

/-- The closed inversion formula applied by `hkl_lattice_get_1_B` to the
triangular matrix `| a b c ; 0 d e ; 0 0 f |` returned by
`hkl_lattice_get_B`. -/
noncomputable def triangular_inverse_formula (m : Matrix (Fin 3) (Fin 3) ℝ) :
    Matrix (Fin 3) (Fin 3) ℝ :=
  let a := m 0 0
  let b := m 0 1
  let c := m 0 2
  let d := m 1 1
  let e := m 1 2
  let f := m 2 2
  !![1 / a, -b / a / d, (b * e - d * c) / a / d / f;
     0, 1 / d, -e / d / f;
     0, 0, 1 / f]

/-- `hkl_lattice_get_1_B` (`hkl-geometry.c:2335`): invert the triangular
matrix `| a b c ; 0 d e ; 0 0 f |` produced by `hkl_lattice_get_B`. -/
noncomputable def hkl_lattice_get_1_B (a' b' c' alpha beta gamma : ℝ) :
    Option (Matrix (Fin 3) (Fin 3) ℝ) :=
  (hkl_lattice_get_B a' b' c' alpha beta gamma).map triangular_inverse_formula

/-! ## q pseudo-axis engine -/

/-- The data `get_q_real` (`hkl-pseudoaxis-common-q.c:91`, `part_002`)
reads: the source wavelength and the two wavevectors exposed by the
geometry operations table.  Modelled from the spec: `ki_get` / `kf_get`
(operation-table defaults, not under `src/`) produce the incident and
outgoing wavevectors in the laboratory basis; they are carried here as
data. -/
structure QContext where
  wavelength : ℝ
  ki : HklVector
  kf : HklVector

/-- `qmax` (`part_002:51`): `2·HKL_TAU / wavelength`. -/
noncomputable def qmax (wavelength : ℝ) : ℝ :=
  2 * HKL_TAU / wavelength

/-- `get_q_real` (`part_002:91`): `θ = ∠(ki,kf)/2`, negated when
`kf.data[1] < 0 || kf.data[2] < 0`, and `q = qmax(λ)·sin θ`. -/
noncomputable def get_q_real (ctx : QContext) : ℝ :=
  let theta0 := hkl_vector_angle ctx.ki ctx.kf / 2
  let theta := if ctx.kf.y < 0 ∨ ctx.kf.z < 0 then -theta0 else theta0
  qmax ctx.wavelength * Real.sin theta

/-- A geometry together with its two holders, each an ordered list of
indices into the axis list (`HklHolderConfig`), as used by
`hkl_geometry_list_multiply_soleil_sixs_med_2_3`
(`hkl-engine-soleil-sixs-med.c:296`). -/
structure HklGeometryH where
  axes : List HklParameter
  sample_idx : List ℕ
  detector_idx : List ℕ

/-- Overwrite the value of the axis at position `i` (out-of-range `i`
leaves the list unchanged, like the C indexed write). -/
def set_axis_value : List HklParameter → ℕ → ℝ → List HklParameter
  | [], _, _ => []
  | p :: rest, 0, v => { p with _value := v } :: rest
  | p :: rest, n + 1, v => p :: set_axis_value rest n v

/-- Modelled from the spec: `gsl_sf_angle_restrict_pos_e` reduces an angle
into the canonical positive range `[0, 2π)`. -/
noncomputable def angle_restrict_pos (v : ℝ) : ℝ :=
  v - 2 * Real.pi * ⌊v / (2 * Real.pi)⌋

/-- `hkl_geometry_list_multiply_soleil_sixs_med_2_3`
(`hkl-engine-soleil-sixs-med.c:296`): the slit axis is the LAST axis of the
detector holder; its value is saved, `fit_slits_orientation` iterates the
1D root solve rewriting that axis, and on non-convergence the saved value
is written back.  Modelled from the spec: the outcome of the GSL hybrid
solver (`fit_slits_orientation`, random restarts, 1000-iteration cap) is
abstracted as `fit_result`: `none` = no convergence, `some x` = converged
with final axis iterate `x`, which the C code then lifts with
`gsl_sf_angle_restrict_pos_e`. -/
noncomputable def hkl_geometry_list_multiply_soleil_sixs_med_2_3
    (fit_result : Option ℝ) (g : HklGeometryH) : HklGeometryH :=
  let slits_id := g.detector_idx.getLastD 0
  let slits_position := ((g.axes.getD slits_id ⟨"", 0, 0, 0, .plain⟩)._value)
  match fit_result with
  | some x => { g with axes := set_axis_value g.axes slits_id (angle_restrict_pos x) }
  | none => { g with axes := set_axis_value g.axes slits_id slits_position }

/-! ## Solver contract (engine `set` / `get`) -/

/-- A rotation of `π` around the x axis. -/
noncomputable def rotxPi : HklParameter :=
  ⟨"omega", Real.pi, -Real.pi, Real.pi, .rotation ⟨1, 0, 0⟩⟩

/-- A translation along x. -/
def translX : HklParameter :=
  ⟨"tx", 0, -100, 100, .translation ⟨1, 0, 0⟩⟩

/-- A rotation axis with value `0` and range `[0, 2π + 1]` (a range
spanning more than 2π, so the axis is permutable). -/
noncomputable def pPerm : HklParameter :=
  ⟨"omega", 0, 0, 2 * Real.pi + 1, .rotation ⟨0, -1, 0⟩⟩

/-- A one-axis geometry around `pPerm`. -/
noncomputable def gPerm : HklGeometry := ⟨1.54, [pPerm]⟩

/-- The 2π-shifted copy of `gPerm` generated by `perm_r`. -/
noncomputable def gPerm2 : HklGeometry :=
  ⟨1.54, [⟨"omega", 2 * Real.pi, 0, 2 * Real.pi + 1, .rotation ⟨0, -1, 0⟩⟩]⟩

/-- One-translation-axis geometry of value `v` (distances are then plain
`|Δ|`, convenient for the sorting counterexample). -/
def gT (v : ℝ) : HklGeometry :=
  ⟨1.54, [⟨"tx", v, -100, 100, .translation ⟨1, 0, 0⟩⟩]⟩

/-- The `get_value_closest` test data of `tests/hkl-axis-t.c` in radians:
self value `100°`, range `[-270°, 180°]`. -/
noncomputable def pClosestSelf : HklParameter :=
  ⟨"omega", 5 * Real.pi / 9, -(3 * Real.pi) / 2, Real.pi, .rotation ⟨1, 0, 0⟩⟩

/-- The reference parameter: value `-75°`. -/
noncomputable def pClosestRef : HklParameter :=
  ⟨"omega", -(5 * Real.pi) / 12, -Real.pi, Real.pi, .rotation ⟨1, 0, 0⟩⟩

/-- One-axis geometry around `pClosestSelf`. -/
noncomputable def gClosestSelf : HklGeometry := ⟨1.54, [pClosestSelf]⟩

/-- One-axis geometry around `pClosestRef`. -/
noncomputable def gClosestRef : HklGeometry := ⟨1.54, [pClosestRef]⟩

/-- A concrete context for the q engine witness. -/
noncomputable def qctx0 : QContext := ⟨1.54, ⟨1, 0, 0⟩, ⟨0, 1, 0⟩⟩

/-- A concrete two-axis geometry with holders for the MED 2+3 witness. -/
def gH0 : HklGeometryH := ⟨[translX, translX], [0], [1]⟩

/-- A parameter with the same name as `translX` but a different
(rotation) transformation. -/
def pBad : HklParameter := ⟨"tx", 0, -1, 1, .rotation ⟨1, 0, 0⟩⟩

/-! # Lemmas and theorems -/

lemma two_pi_pos : (0 : ℝ) < 2 * Real.pi := by positivity

lemma two_pi_ne_zero : (2 * Real.pi : ℝ) ≠ 0 := ne_of_gt two_pi_pos

/-- The restricted angle lands in the GSL range `(-π, π]`. -/
lemma angle_restrict_symm_bounds (d : ℝ) :
    -Real.pi < angle_restrict_symm d ∧ angle_restrict_symm d ≤ Real.pi := by
  have h1 : (d / (2 * Real.pi) - 1 / 2 : ℝ) ≤ ⌈d / (2 * Real.pi) - 1 / 2⌉ :=
    Int.le_ceil _
  have h2 : ((⌈d / (2 * Real.pi) - 1 / 2⌉ : ℤ) : ℝ)
      < d / (2 * Real.pi) - 1 / 2 + 1 := Int.ceil_lt_add_one _
  have hkey : angle_restrict_symm d
      = 2 * Real.pi * (d / (2 * Real.pi) - ⌈d / (2 * Real.pi) - 1 / 2⌉) := by
    rw [angle_restrict_symm, mul_sub, mul_comm (2 * Real.pi) (d / (2 * Real.pi)),
      div_mul_cancel₀ d two_pi_ne_zero]
  constructor
  · rw [hkey]
    nlinarith [Real.pi_pos]
  · rw [hkey]
    nlinarith [Real.pi_pos]

/-- The restricted angle never exceeds π in absolute value. -/
lemma abs_angle_restrict_symm_le_pi (d : ℝ) :
    |angle_restrict_symm d| ≤ Real.pi :=
  abs_le.mpr ⟨le_of_lt (angle_restrict_symm_bounds d).1,
    (angle_restrict_symm_bounds d).2⟩

/-- The symmetric restriction is the distance to the nearest multiple of
2π: it is below `|d - 2πk|` for every integer `k`. -/
lemma abs_angle_restrict_symm_le (d : ℝ) (k : ℤ) :
    |angle_restrict_symm d| ≤ |d - 2 * Real.pi * k| := by
  have hpi := abs_angle_restrict_symm_le_pi d
  rcases eq_or_ne k ⌈d / (2 * Real.pi) - 1 / 2⌉ with rfl | hne
  · rw [angle_restrict_symm]
  · have hm0 : (⌈d / (2 * Real.pi) - 1 / 2⌉ - k : ℤ) ≠ 0 :=
      sub_ne_zero.mpr (Ne.symm hne)
    have h1 : (1 : ℝ) ≤ |((⌈d / (2 * Real.pi) - 1 / 2⌉ - k : ℤ) : ℝ)| := by
      exact_mod_cast Int.one_le_abs hm0
    have hid : d - 2 * Real.pi * k
        = angle_restrict_symm d
          + 2 * Real.pi * ((⌈d / (2 * Real.pi) - 1 / 2⌉ - k : ℤ) : ℝ) := by
      rw [angle_restrict_symm]
      push_cast
      ring
    have htri := abs_sub_abs_le_abs_sub
      (2 * Real.pi * ((⌈d / (2 * Real.pi) - 1 / 2⌉ - k : ℤ) : ℝ))
      (-(angle_restrict_symm d))
    rw [abs_neg, sub_neg_eq_add] at htri
    have habs2 : |2 * Real.pi * ((⌈d / (2 * Real.pi) - 1 / 2⌉ - k : ℤ) : ℝ)|
        = 2 * Real.pi * |((⌈d / (2 * Real.pi) - 1 / 2⌉ - k : ℤ) : ℝ)| := by
      rw [abs_mul, abs_of_pos two_pi_pos]
    have hcomm : |2 * Real.pi * ((⌈d / (2 * Real.pi) - 1 / 2⌉ - k : ℤ) : ℝ)
          + angle_restrict_symm d|
        = |angle_restrict_symm d
          + 2 * Real.pi * ((⌈d / (2 * Real.pi) - 1 / 2⌉ - k : ℤ) : ℝ)| := by
      rw [add_comm]
    rw [hcomm, habs2] at htri
    rw [hid]
    nlinarith [Real.pi_pos]

/-- The shortest-arc distance is symmetric. -/
lemma abs_angle_restrict_symm_neg (d : ℝ) :
    |angle_restrict_symm (-d)| = |angle_restrict_symm d| := by
  have h1 : ∀ e : ℝ, |angle_restrict_symm (-e)| ≤ |angle_restrict_symm e| := by
    intro e
    have h := abs_angle_restrict_symm_le (-e) (-⌈e / (2 * Real.pi) - 1 / 2⌉)
    have h2 : |(-e) - 2 * Real.pi * ((-⌈e / (2 * Real.pi) - 1 / 2⌉ : ℤ) : ℝ)|
        = |e - 2 * Real.pi * ((⌈e / (2 * Real.pi) - 1 / 2⌉ : ℤ) : ℝ)| := by
      rw [show (-e) - 2 * Real.pi * ((-⌈e / (2 * Real.pi) - 1 / 2⌉ : ℤ) : ℝ)
          = -(e - 2 * Real.pi * ((⌈e / (2 * Real.pi) - 1 / 2⌉ : ℤ) : ℝ)) from by
            push_cast; ring]
      exact abs_neg _
    rw [h2] at h
    exact h
  refine le_antisymm (h1 d) ?_
  simpa using h1 (-d)

/-- A full 2π shift has shortest-arc distance zero. -/
lemma abs_angle_restrict_symm_two_pi :
    |angle_restrict_symm (2 * Real.pi)| = 0 := by
  rw [angle_restrict_symm, div_self two_pi_ne_zero]
  rw [show ((1 : ℝ) - 1 / 2) = 1 / 2 from by norm_num]
  rw [show (⌈(1 / 2 : ℝ)⌉ : ℤ) = 1 from by rw [Int.ceil_eq_iff] <;> norm_num]
  rw [Int.cast_one, mul_one, sub_self, abs_zero]

/-- The per-parameter orthodromic distance is symmetric between parameters
of the same transformation kind. -/
lemma orthodromic_symm (p q : HklParameter)
    (h : isRotationAxis p = isRotationAxis q) :
    hkl_parameter_orthodromic_distance_get p q._value
      = hkl_parameter_orthodromic_distance_get q p._value := by
  unfold hkl_parameter_orthodromic_distance_get
  rcases hp : p.type with v | v | _ <;> rcases hq : q.type with w | w | _ <;>
      simp [isRotationAxis, hp, hq] at h ⊢ <;>
    try exact abs_sub_comm _ _
  all_goals
    rw [show q._value - p._value = -(p._value - q._value) from by ring,
      abs_angle_restrict_symm_neg]

/-- List version of the orthodromic symmetry. -/
lemma zip_orthodromic_symm :
    ∀ (xs ys : List HklParameter),
      xs.map isRotationAxis = ys.map isRotationAxis →
      (List.zipWith (fun p q => hkl_parameter_orthodromic_distance_get p q._value) xs ys).sum
        = (List.zipWith (fun p q => hkl_parameter_orthodromic_distance_get p q._value) ys xs).sum
  | [], ys, _ => by cases ys <;> simp
  | x :: xs, [], h => by simp at h
  | x :: xs, y :: ys, h => by
      simp only [List.map_cons, List.cons.injEq] at h
      simp only [List.zipWith_cons_cons, List.sum_cons]
      rw [orthodromic_symm x y h.1, zip_orthodromic_symm xs ys h.2]

/-- The geometry-level orthodromic distance is symmetric between
geometries whose axes have the same transformation kinds. -/
lemma geometry_distance_orthodromic_symm (a b : HklGeometry)
    (h : a.axes.map isRotationAxis = b.axes.map isRotationAxis) :
    hkl_geometry_distance_orthodromic a b = hkl_geometry_distance_orthodromic b a := by
  rw [hkl_geometry_distance_orthodromic, hkl_geometry_distance_orthodromic]
  exact zip_orthodromic_symm a.axes b.axes h

/-- C5, counterexample: the claim states that `hkl_geometry_wavelength_set`
rejects every wavelength `≤ 0` and leaves the stored wavelength unchanged.
At wavelength `-1` the function instead reports success and a subsequent
`hkl_geometry_wavelength_get` returns `-1`, although the geometry's
previous wavelength was `1.54`. -/
theorem C5_wavelength_counterexample :
    (-1 : ℝ) ≤ 0 ∧
    (hkl_geometry_wavelength_set (gT 0) (-1)).1 = true ∧
    hkl_geometry_wavelength_get (hkl_geometry_wavelength_set (gT 0) (-1)).2 = -1 ∧
    hkl_geometry_wavelength_get (gT 0) ≠ -1 := by
  refine ⟨by norm_num, rfl, rfl, ?_⟩
  show (1.54 : ℝ) ≠ -1
  norm_num

/-- C5, amended: `hkl_geometry_wavelength_set` performs no validation at
all: for EVERY wavelength (including values `≤ 0`) it reports success,
stores the value, and a subsequent `hkl_geometry_wavelength_get` returns
exactly that value. -/
theorem C5_wavelength_set_amended (g : HklGeometry) (w : ℝ) :
    (hkl_geometry_wavelength_set g w).1 = true ∧
    hkl_geometry_wavelength_get (hkl_geometry_wavelength_set g w).2 = w :=
  ⟨rfl, rfl⟩

/-- C2: the claim (and the in-source comment of `hkl_holder_update`) says
the quaternion accumulation terminates at the first non-rotation
parameter, so parameters after the first non-rotation contribute nothing.
The code instead `continue`s over non-rotations: on the holder
`[rotation π around x, translation, rotation π around x]` it computes the
product of BOTH rotations, `(-1,0,0,0)`, while the documented behaviour
yields the first rotation alone, `(0,1,0,0)`. -/
theorem C2_holder_update_code_bug :
    hkl_holder_update [rotxPi, translX, rotxPi] = ⟨-1, 0, 0, 0⟩ ∧
    hkl_holder_update_documented [rotxPi, translX, rotxPi] = ⟨0, 1, 0, 0⟩ ∧
    hkl_holder_update [rotxPi, translX, rotxPi]
      ≠ hkl_holder_update_documented [rotxPi, translX, rotxPi] := by
  have hq : hkl_parameter_quaternion_get rotxPi = some ⟨0, 1, 0, 0⟩ := by
    rw [rotxPi, hkl_parameter_quaternion_get]
    simp [Real.cos_pi_div_two, Real.sin_pi_div_two]
  have ht : hkl_parameter_quaternion_get translX = none := by
    rw [translX, hkl_parameter_quaternion_get]
  have h1 : hkl_holder_update [rotxPi, translX, rotxPi] = ⟨-1, 0, 0, 0⟩ := by
    rw [hkl_holder_update]
    simp only [List.foldl_cons, List.foldl_nil, hq, ht]
    rw [q0, hkl_quaternion_times_quaternion, hkl_quaternion_times_quaternion]
    norm_num
  have h2 : hkl_holder_update_documented [rotxPi, translX, rotxPi]
      = ⟨0, 1, 0, 0⟩ := by
    rw [hkl_holder_update_documented]
    have : isRotationAxis translX = false := by rw [translX, isRotationAxis]
    simp only [List.takeWhile]
    rw [show isRotationAxis rotxPi = true from by rw [rotxPi, isRotationAxis], this]
    simp only [List.foldl_cons, List.foldl_nil, hq]
    rw [q0, hkl_quaternion_times_quaternion]
    norm_num
  refine ⟨h1, h2, ?_⟩
  rw [h1, h2]
  intro hcontr
  have := congrArg HklQuaternion.a hcontr
  norm_num at this

/-- C9: the forward computation of the q engine returns
`q = (2·τ/λ)·sin θ` with `θ = ∠(ki,kf)/2`, and `θ` is negated exactly when
`kf_y < 0` or `kf_z < 0`. -/
theorem C9_get_q_real (ctx : QContext) (hw : 0 < ctx.wavelength) :
    (¬(ctx.kf.y < 0 ∨ ctx.kf.z < 0) →
        get_q_real ctx = 2 * HKL_TAU / ctx.wavelength *
          Real.sin (hkl_vector_angle ctx.ki ctx.kf / 2)) ∧
    ((ctx.kf.y < 0 ∨ ctx.kf.z < 0) →
        get_q_real ctx = -(2 * HKL_TAU / ctx.wavelength *
          Real.sin (hkl_vector_angle ctx.ki ctx.kf / 2))) := by
  constructor <;> intro h <;>
    simp only [get_q_real, qmax, h, if_true, if_false, ite_true, ite_false,
      Real.sin_neg] <;>
    simp [h] <;> ring

/-- C9 witness: the theorem applied to the concrete context `qctx0`
(wavelength 1.54, `ki = x̂`, `kf = ŷ`). -/
theorem C9_get_q_real_witness :
    (0 : ℝ) < qctx0.wavelength ∧
    ((¬(qctx0.kf.y < 0 ∨ qctx0.kf.z < 0) →
        get_q_real qctx0 = 2 * HKL_TAU / qctx0.wavelength *
          Real.sin (hkl_vector_angle qctx0.ki qctx0.kf / 2)) ∧
     ((qctx0.kf.y < 0 ∨ qctx0.kf.z < 0) →
        get_q_real qctx0 = -(2 * HKL_TAU / qctx0.wavelength *
          Real.sin (hkl_vector_angle qctx0.ki qctx0.kf / 2)))) :=
  ⟨by rw [qctx0]; norm_num,
   C9_get_q_real qctx0 (by rw [qctx0]; norm_num)⟩

lemma set_axis_value_length :
    ∀ (l : List HklParameter) (i : ℕ) (v : ℝ),
      (set_axis_value l i v).length = l.length
  | [], _, _ => rfl
  | _ :: rest, 0, _ => rfl
  | p :: rest, n + 1, v => by
      simp only [set_axis_value, List.length_cons, set_axis_value_length rest n v]

lemma set_axis_value_getElem?_ne :
    ∀ (l : List HklParameter) (i j : ℕ) (v : ℝ), j ≠ i →
      (set_axis_value l i v)[j]? = l[j]?
  | [], _, _, _, _ => rfl
  | p :: rest, 0, 0, v, h => absurd rfl h
  | p :: rest, 0, j + 1, v, _ => by simp [set_axis_value]
  | p :: rest, n + 1, 0, v, _ => by simp [set_axis_value]
  | p :: rest, n + 1, j + 1, v, h => by
      simp only [set_axis_value, List.getElem?_cons_succ]
      exact set_axis_value_getElem?_ne rest n j v (by omega)

lemma set_axis_value_getD_value :
    ∀ (l : List HklParameter) (i : ℕ) (v : ℝ), i < l.length →
      ((set_axis_value l i v).getD i ⟨"", 0, 0, 0, .plain⟩)._value = v
  | [], i, v, h => by simp at h
  | p :: rest, 0, v, _ => rfl
  | p :: rest, n + 1, v, h => by
      simp only [set_axis_value, List.getD_cons_succ]
      exact set_axis_value_getD_value rest n v (by simpa using h)

lemma set_axis_value_restore :
    ∀ (l : List HklParameter) (i : ℕ),
      set_axis_value l i ((l.getD i ⟨"", 0, 0, 0, .plain⟩)._value) = l
  | [], _ => rfl
  | p :: rest, 0 => rfl
  | p :: rest, n + 1 => by
      simp only [set_axis_value, List.getD_cons_succ]
      rw [set_axis_value_restore rest n]

lemma angle_restrict_pos_nonneg (v : ℝ) : 0 ≤ angle_restrict_pos v := by
  have h : angle_restrict_pos v = (2 * Real.pi) * Int.fract (v / (2 * Real.pi)) := by
    rw [angle_restrict_pos, Int.fract]
    field_simp
  rw [h]
  exact mul_nonneg (le_of_lt two_pi_pos) (Int.fract_nonneg _)

lemma angle_restrict_pos_lt (v : ℝ) : angle_restrict_pos v < 2 * Real.pi := by
  have h : angle_restrict_pos v = (2 * Real.pi) * Int.fract (v / (2 * Real.pi)) := by
    rw [angle_restrict_pos, Int.fract]
    field_simp
  rw [h]
  calc (2 * Real.pi) * Int.fract (v / (2 * Real.pi))
      < (2 * Real.pi) * 1 :=
        mul_lt_mul_of_pos_left (Int.fract_lt_one _) two_pi_pos
    _ = 2 * Real.pi := mul_one _

/-- C10: the SOLEIL SIXS MED 2+3 multiply hook touches at most the last
axis of the detector holder (the slit axis): every other axis and both
holders are unchanged; when the slit fit does not converge
(`fit_result = none`) the slit axis is restored to its exact saved value,
so the geometry is unchanged; when it converges the slit axis holds the
converged value lifted into the canonical range `[0, 2π)`. -/
theorem C10_med_2_3_multiply_frame (g : HklGeometryH) (fit_result : Option ℝ)
    (hdet : g.detector_idx ≠ [])
    (hid : g.detector_idx.getLastD 0 < g.axes.length) :
    ((hkl_geometry_list_multiply_soleil_sixs_med_2_3 fit_result g).axes.length
        = g.axes.length) ∧
    (∀ j, j ≠ g.detector_idx.getLastD 0 →
      (hkl_geometry_list_multiply_soleil_sixs_med_2_3 fit_result g).axes[j]?
        = g.axes[j]?) ∧
    (hkl_geometry_list_multiply_soleil_sixs_med_2_3 fit_result g).sample_idx
        = g.sample_idx ∧
    (hkl_geometry_list_multiply_soleil_sixs_med_2_3 fit_result g).detector_idx
        = g.detector_idx ∧
    (fit_result = none →
      hkl_geometry_list_multiply_soleil_sixs_med_2_3 fit_result g = g) ∧
    (∀ x, fit_result = some x →
      (((hkl_geometry_list_multiply_soleil_sixs_med_2_3 fit_result g).axes.getD
            (g.detector_idx.getLastD 0) ⟨"", 0, 0, 0, .plain⟩)._value
          = angle_restrict_pos x ∧
        0 ≤ angle_restrict_pos x ∧ angle_restrict_pos x < 2 * Real.pi)) := by
  cases fit_result with
  | none =>
      have hg : hkl_geometry_list_multiply_soleil_sixs_med_2_3 none g = g := by
        rw [hkl_geometry_list_multiply_soleil_sixs_med_2_3]
        simp only [set_axis_value_restore]
      rw [hg]
      refine ⟨rfl, fun j _ => rfl, rfl, rfl, fun _ => rfl, fun x hx => by
        simp at hx⟩
  | some x =>
      rw [hkl_geometry_list_multiply_soleil_sixs_med_2_3]
      refine ⟨set_axis_value_length _ _ _,
        fun j hj => set_axis_value_getElem?_ne _ _ _ _ hj, rfl, rfl,
        fun h => by simp at h, fun y hy => ?_⟩
      have hxy : x = y := by injection hy
      subst hxy
      exact ⟨set_axis_value_getD_value _ _ _ hid,
        angle_restrict_pos_nonneg x, angle_restrict_pos_lt x⟩

/-- C10 witness: the theorem applied to the concrete geometry `gH0` (two
axes, detector holder `[1]`) with a non-converged fit. -/
theorem C10_med_2_3_multiply_frame_witness :
    (gH0.detector_idx ≠ [] ∧ gH0.detector_idx.getLastD 0 < gH0.axes.length) ∧
    (hkl_geometry_list_multiply_soleil_sixs_med_2_3 none gH0 = gH0) :=
  ⟨⟨by rw [gH0]; simp, by rw [gH0]; simp⟩,
   (C10_med_2_3_multiply_frame gH0 none (by rw [gH0]; simp)
      (by rw [gH0]; simp)).2.2.2.2.1 rfl⟩

lemma add_axis_go_not_found (axes : List HklParameter) (axis : HklParameter) :
    ∀ (l : List HklParameter) (i : ℕ),
      (∀ p ∈ l, p.name ≠ axis.name) →
      add_axis_go axes axis l i = some (axes.length, axes ++ [axis])
  | [], i, _ => rfl
  | p :: rest, i, h => by
      rw [add_axis_go, if_neg (h p (List.mem_cons_self p rest))]
      exact add_axis_go_not_found axes axis rest (i + 1)
        (fun q hq => h q (List.mem_cons_of_mem p hq))

lemma add_axis_go_found_compat (axes : List HklParameter) (axis : HklParameter) :
    ∀ (l : List HklParameter) (k i : ℕ) (hk : k < l.length),
      (l.get ⟨k, hk⟩).name = axis.name →
      (∀ j (hj : j < k), (l.get ⟨j, lt_trans hj hk⟩).name ≠ axis.name) →
      (l.get ⟨k, hk⟩).type = axis.type →
      add_axis_go axes axis l i = some (i + k, axes)
  | [], k, i, hk, _, _, _ => absurd hk (by simp)
  | p :: rest, 0, i, hk, hname, _, htype => by
      have hname' : p.name = axis.name := hname
      have htype' : p.type = axis.type := htype
      rw [add_axis_go, if_pos hname', hkl_parameter_transformation_cmp,
        if_pos htype']
      simp
  | p :: rest, k + 1, i, hk, hname, hfirst, htype => by
      have hp : p.name ≠ axis.name := hfirst 0 (Nat.succ_pos k)
      rw [add_axis_go, if_neg hp]
      rw [show i + (k + 1) = (i + 1) + k from by omega]
      exact add_axis_go_found_compat axes axis rest k (i + 1)
        (by simpa using hk) hname
        (fun j hj => hfirst (j + 1) (by omega)) htype

lemma add_axis_go_found_incompat (axes : List HklParameter) (axis : HklParameter) :
    ∀ (l : List HklParameter) (k i : ℕ) (hk : k < l.length),
      (l.get ⟨k, hk⟩).name = axis.name →
      (∀ j (hj : j < k), (l.get ⟨j, lt_trans hj hk⟩).name ≠ axis.name) →
      (l.get ⟨k, hk⟩).type ≠ axis.type →
      add_axis_go axes axis l i = none
  | [], k, i, hk, _, _, _ => absurd hk (by simp)
  | p :: rest, 0, i, hk, hname, _, htype => by
      have hname' : p.name = axis.name := hname
      have htype' : p.type ≠ axis.type := htype
      rw [add_axis_go, if_pos hname', hkl_parameter_transformation_cmp,
        if_neg htype']
      simp
  | p :: rest, k + 1, i, hk, hname, hfirst, htype => by
      have hp : p.name ≠ axis.name := hfirst 0 (Nat.succ_pos k)
      rw [add_axis_go, if_neg hp]
      exact add_axis_go_found_incompat axes axis rest k (i + 1)
        (by simpa using hk) hname
        (fun j hj => hfirst (j + 1) (by omega)) htype

/-- C6: axis insertion is idempotent.  When an axis with the same name is
already present at (first-occurrence) index `k` and the two transformations
are identical, `hkl_geometry_add_axis` returns index `k` and creates no new
entry; when the name matches but the transformation differs, the build
aborts (`exit(128)`, modelled as `none`); a fresh name is appended at the
tail with index `length`. -/
theorem C6_add_axis_idempotent :
    (∀ (axes : List HklParameter) (axis : HklParameter) (k : ℕ)
        (hk : k < axes.length),
        (axes.get ⟨k, hk⟩).name = axis.name →
        (∀ j (hj : j < k), (axes.get ⟨j, lt_trans hj hk⟩).name ≠ axis.name) →
        (axes.get ⟨k, hk⟩).type = axis.type →
        hkl_geometry_add_axis axes axis = some (k, axes)) ∧
    (∀ (axes : List HklParameter) (axis : HklParameter) (k : ℕ)
        (hk : k < axes.length),
        (axes.get ⟨k, hk⟩).name = axis.name →
        (∀ j (hj : j < k), (axes.get ⟨j, lt_trans hj hk⟩).name ≠ axis.name) →
        (axes.get ⟨k, hk⟩).type ≠ axis.type →
        hkl_geometry_add_axis axes axis = none) ∧
    (∀ (axes : List HklParameter) (axis : HklParameter),
        (∀ p ∈ axes, p.name ≠ axis.name) →
        hkl_geometry_add_axis axes axis = some (axes.length, axes ++ [axis])) := by
  refine ⟨fun axes axis k hk h1 h2 h3 => ?_,
    fun axes axis k hk h1 h2 h3 => ?_,
    fun axes axis h => ?_⟩
  · rw [hkl_geometry_add_axis]
    have := add_axis_go_found_compat axes axis axes k 0 hk h1 h2 h3
    simpa using this
  · rw [hkl_geometry_add_axis]
    exact add_axis_go_found_incompat axes axis axes k 0 hk h1 h2 h3
  · rw [hkl_geometry_add_axis]
    exact add_axis_go_not_found axes axis axes 0 h

/-- C6 witness: re-adding `translX` to `[translX]` yields index 0 and the
unchanged list; adding `pBad` (same name, different transformation)
aborts. -/
theorem C6_add_axis_idempotent_witness :
    hkl_geometry_add_axis [translX] translX = some (0, [translX]) ∧
    hkl_geometry_add_axis [translX] pBad = none := by
  constructor
  · exact C6_add_axis_idempotent.1 [translX] translX 0 (by simp) rfl
      (fun j hj => absurd hj (by omega)) rfl
  · refine C6_add_axis_idempotent.2.1 [translX] pBad 0 (by simp) rfl
      (fun j hj => absurd hj (by omega)) ?_
    rw [translX, pBad]
    simp

lemma geometry_list_sort_insert_perm (d : HklGeometry → ℝ) (x : HklGeometry) :
    ∀ l : List HklGeometry, (geometry_list_sort_insert d x l).Perm (x :: l)
  | [] => List.Perm.refl _
  | y :: ys => by
      rw [geometry_list_sort_insert]
      split
      · exact ((geometry_list_sort_insert_perm d x ys).cons y).trans
          (List.Perm.swap x y ys)
      · exact List.Perm.refl _

lemma geometry_list_sort_insert_chain (d : HklGeometry → ℝ) (x : HklGeometry) :
    ∀ l : List HklGeometry,
      List.Chain' (fun a b => d a ≤ d b + HKL_EPSILON) l →
      List.Chain' (fun a b => d a ≤ d b + HKL_EPSILON)
        (geometry_list_sort_insert d x l)
  | [], _ => List.chain'_singleton x
  | y :: ys, h => by
      rw [geometry_list_sort_insert]
      split
      next hcond =>
        have htail : List.Chain' (fun a b => d a ≤ d b + HKL_EPSILON)
            (geometry_list_sort_insert d x ys) :=
          geometry_list_sort_insert_chain d x ys h.tail
        cases ys with
        | nil =>
            refine List.chain'_cons.mpr ⟨?_, htail⟩
            calc d y ≤ d x := le_of_lt hcond.1
              _ ≤ d x + HKL_EPSILON := by rw [HKL_EPSILON]; norm_num
        | cons z zs =>
            rw [geometry_list_sort_insert] at htail ⊢
            split at htail
            next hc2 =>
              rw [if_pos hc2]
              refine List.chain'_cons.mpr ⟨?_, htail⟩
              exact (List.chain'_cons.mp h).1
            next hc2 =>
              rw [if_neg hc2]
              refine List.chain'_cons.mpr ⟨?_, htail⟩
              calc d y ≤ d x := le_of_lt hcond.1
                _ ≤ d x + HKL_EPSILON := by rw [HKL_EPSILON]; norm_num
      next hcond =>
        refine List.chain'_cons.mpr ⟨?_, h⟩
        rcases not_and_or.mp hcond with h1 | h1
        · have := not_lt.mp h1
          calc d x ≤ d y := this
            _ ≤ d y + HKL_EPSILON := by rw [HKL_EPSILON]; norm_num
        · have := abs_sub_le_iff.mp (not_lt.mp h1)
          linarith [this.2]

lemma geometry_list_sort_foldl_perm (d : HklGeometry → ℝ) :
    ∀ (items acc : List HklGeometry),
      (items.foldl (fun a i => geometry_list_sort_insert d i a) acc).Perm
        (acc ++ items)
  | [], acc => by simp
  | i :: is, acc => by
      simp only [List.foldl_cons]
      refine (geometry_list_sort_foldl_perm d is _).trans ?_
      refine ((geometry_list_sort_insert_perm d i acc).append_right is).trans ?_
      exact (List.perm_middle).symm

lemma geometry_list_sort_foldl_chain (d : HklGeometry → ℝ) :
    ∀ (items acc : List HklGeometry),
      List.Chain' (fun a b => d a ≤ d b + HKL_EPSILON) acc →
      List.Chain' (fun a b => d a ≤ d b + HKL_EPSILON)
        (items.foldl (fun a i => geometry_list_sort_insert d i a) acc)
  | [], acc, h => h
  | i :: is, acc, h => by
      simp only [List.foldl_cons]
      exact geometry_list_sort_foldl_chain d is _
        (geometry_list_sort_insert_chain d i acc h)

/-- C8, amended: `hkl_geometry_list_sort` permutes the items and leaves
them ordered by distance from `ref` only up to the `HKL_EPSILON` tolerance
between consecutive items (`d[k] ≤ d[k+1] + ε`).  It is neither strictly
non-decreasing nor stable: the insertion scan stops at the first item whose
distance is within `HKL_EPSILON` of the incoming one, so the later item is
placed BEFORE it (see the counterexample). -/
theorem C8_sort_amended (items : List HklGeometry) (ref : HklGeometry) :
    (hkl_geometry_list_sort items ref).Perm items ∧
    List.Chain'
      (fun a b => hkl_geometry_distance ref a ≤ hkl_geometry_distance ref b
        + HKL_EPSILON)
      (hkl_geometry_list_sort items ref) := by
  constructor
  · rw [hkl_geometry_list_sort]
    simpa using geometry_list_sort_foldl_perm
      (fun g => hkl_geometry_distance ref g) items []
  · rw [hkl_geometry_list_sort]
    exact geometry_list_sort_foldl_chain _ items [] (List.chain'_nil)

/-- C8, counterexample: the claim states the sorted items appear in
non-decreasing distance order with stable handling of ties within
`HKL_EPSILON`.  On the two-item list `[gT 1, gT (1 + 5·10⁻⁷)]` with
reference `gT 0`, whose distances `1` and `1 + 5·10⁻⁷` are equal within
`HKL_EPSILON`, the sort returns the items in REVERSED order: the resulting
list is strictly decreasing in distance and the ε-tie did not keep its
pre-sort order. -/
theorem C8_sort_counterexample :
    hkl_geometry_list_sort [gT 1, gT (1 + 5e-7)] (gT 0)
      = [gT (1 + 5e-7), gT 1] ∧
    hkl_geometry_distance (gT 0) (gT (1 + 5e-7))
      > hkl_geometry_distance (gT 0) (gT 1) ∧
    |hkl_geometry_distance (gT 0) (gT 1)
      - hkl_geometry_distance (gT 0) (gT (1 + 5e-7))| ≤ HKL_EPSILON := by
  have hd : ∀ v : ℝ, 0 ≤ v → hkl_geometry_distance (gT 0) (gT v) = v := by
    intro v hv
    rw [hkl_geometry_distance, gT, gT]
    simp [abs_of_nonneg hv]
  have h1 : hkl_geometry_distance (gT 0) (gT 1) = 1 := hd 1 (by norm_num)
  have h2 : hkl_geometry_distance (gT 0) (gT (1 + 5e-7)) = 1 + 5e-7 :=
    hd _ (by norm_num)
  refine ⟨?_, by rw [h1, h2]; norm_num,
    by rw [h1, h2, HKL_EPSILON]; rw [abs_le]; constructor <;> norm_num⟩
  rw [hkl_geometry_list_sort]
  simp only [List.foldl_cons, List.foldl_nil]
  rw [geometry_list_sort_insert]
  rw [geometry_list_sort_insert, if_neg]
  rw [h1, h2, HKL_EPSILON]
  intro hcontr
  have h3 := hcontr.2
  rw [show (1 : ℝ) - (1 + 5e-7) = -(5e-7) from by norm_num, abs_neg,
    abs_of_nonneg (by norm_num : (0 : ℝ) ≤ 5e-7)] at h3
  norm_num at h3

lemma HKL_TAU_ne_zero : HKL_TAU ≠ 0 := by
  rw [HKL_TAU]
  exact two_pi_ne_zero

lemma sin_alpha_ne_zero_of_latticeD_pos (alpha beta gamma : ℝ)
    (hD : 0 < latticeD alpha beta gamma) : Real.sin alpha ≠ 0 := by
  intro h
  have hpyth := Real.sin_sq_add_cos_sq alpha
  rw [h] at hpyth
  have h1 : Real.cos alpha * Real.cos alpha = 1 := by nlinarith [hpyth]
  have h2 : latticeD alpha beta gamma ≤ 0 := by
    rw [latticeD]
    nlinarith [sq_nonneg (Real.cos beta - Real.cos alpha * Real.cos gamma), h1]
  linarith

/-- Inverting an upper-triangular 3×3 matrix with the closed formulas of
`hkl_lattice_get_1_B` gives a left inverse whenever the diagonal is
non-zero; the off-diagonal entries are unconstrained. -/
lemma triangular_inverse_mul (A B C D E F : ℝ)
    (hA : A ≠ 0) (hD : D ≠ 0) (hF : F ≠ 0) :
    !![1 / A, -B / A / D, (B * E - D * C) / A / D / F;
       0, 1 / D, -E / D / F;
       0, 0, 1 / F] * !![A, B, C; 0, D, E; 0, 0, F] = 1 := by
  rw [Matrix.mul_fin_three, Matrix.one_fin_three]
  ext i j
  fin_cases i <;> fin_cases j <;>
    simp only [Matrix.cons_val_zero, Matrix.cons_val_one, Matrix.cons_val_two,
      Matrix.head_cons, Matrix.tail_cons, Matrix.cons_val', Matrix.of_apply,
      Matrix.empty_val', Matrix.cons_val_fin_one, Matrix.head_fin_const] <;>
    field_simp <;> ring

lemma triangular_inverse_formula_eq (A B C D E F : ℝ) :
    triangular_inverse_formula !![A, B, C; 0, D, E; 0, 0, F]
      = !![1 / A, -B / A / D, (B * E - D * C) / A / D / F;
           0, 1 / D, -E / D / F;
           0, 0, 1 / F] := by
  rw [triangular_inverse_formula]
  simp

/-- C4, amended: `check_lattice_param` (hence lattice construction and
modification) fails with the degenerate-lattice error exactly when
`D < 0` — at `D = 0` it succeeds (see the counterexample); on success the
returned volume is `a·b·c·√D`; and for `D > 0` with non-zero `a`, `b`, `c`
the inverse-B matrix is an exact left inverse of B. -/
theorem C4_lattice_amended (a b c alpha beta gamma : ℝ) :
    (check_lattice_param a b c alpha beta gamma = none ↔
      latticeD alpha beta gamma < 0) ∧
    (∀ v, check_lattice_param a b c alpha beta gamma = some v →
      v = a * b * c * Real.sqrt (latticeD alpha beta gamma)) ∧
    (0 < latticeD alpha beta gamma → a ≠ 0 → b ≠ 0 → c ≠ 0 →
      ∃ B Binv, hkl_lattice_get_B a b c alpha beta gamma = some B ∧
        hkl_lattice_get_1_B a b c alpha beta gamma = some Binv ∧
        Binv * B = 1) := by
  refine ⟨?_, ?_, ?_⟩
  · rw [check_lattice_param]
    by_cases h : latticeD alpha beta gamma < 0 <;> simp [h]
  · intro v hv
    rw [check_lattice_param] at hv
    by_cases h : latticeD alpha beta gamma < 0
    · rw [if_pos h] at hv
      exact absurd hv (by simp)
    · rw [if_neg h] at hv
      exact (Option.some.injEq _ _ ▸ hv).symm
  · intro hD ha hb hc
    have hsa : Real.sin alpha ≠ 0 :=
      sin_alpha_ne_zero_of_latticeD_pos alpha beta gamma hD
    have hDs : Real.sqrt (latticeD alpha beta gamma) ≠ 0 :=
      ne_of_gt (Real.sqrt_pos.mpr hD)
    have hBeq : hkl_lattice_get_B a b c alpha beta gamma
        = some !![HKL_TAU * Real.sin alpha
                    / (a * Real.sqrt (latticeD alpha beta gamma)),
                  HKL_TAU / (b * Real.sin alpha)
                    / Real.sqrt (latticeD alpha beta gamma)
                    * (Real.cos alpha * Real.cos beta - Real.cos gamma),
                  HKL_TAU / c / Real.sin alpha
                    / Real.sqrt (latticeD alpha beta gamma)
                    * (Real.cos gamma * Real.cos alpha - Real.cos beta);
                  0, HKL_TAU / (b * Real.sin alpha),
                  HKL_TAU / c / Real.sin alpha
                    / (Real.sin beta * Real.sin gamma)
                    * (Real.cos beta * Real.cos gamma - Real.cos alpha);
                  0, 0, HKL_TAU / c] := by
      rw [hkl_lattice_get_B, if_pos hD]
    have hB1eq : hkl_lattice_get_1_B a b c alpha beta gamma
        = some (triangular_inverse_formula
            !![HKL_TAU * Real.sin alpha
                  / (a * Real.sqrt (latticeD alpha beta gamma)),
                HKL_TAU / (b * Real.sin alpha)
                  / Real.sqrt (latticeD alpha beta gamma)
                  * (Real.cos alpha * Real.cos beta - Real.cos gamma),
                HKL_TAU / c / Real.sin alpha
                  / Real.sqrt (latticeD alpha beta gamma)
                  * (Real.cos gamma * Real.cos alpha - Real.cos beta);
                0, HKL_TAU / (b * Real.sin alpha),
                HKL_TAU / c / Real.sin alpha
                  / (Real.sin beta * Real.sin gamma)
                  * (Real.cos beta * Real.cos gamma - Real.cos alpha);
                0, 0, HKL_TAU / c]) := by
      rw [hkl_lattice_get_1_B, hBeq, Option.map_some']
    rw [triangular_inverse_formula_eq] at hB1eq
    exact ⟨_, _, hBeq, hB1eq,
      triangular_inverse_mul _ _ _ _ _ _
        (div_ne_zero (mul_ne_zero HKL_TAU_ne_zero hsa) (mul_ne_zero ha hDs))
        (div_ne_zero HKL_TAU_ne_zero (mul_ne_zero hb hsa))
        (div_ne_zero HKL_TAU_ne_zero hc)⟩

/-- C4, counterexample: the claim states construction fails exactly when
`D ≤ 0`.  At `α = 0`, `β = γ = π/2` the discriminant is `D = 0`, yet
`check_lattice_param` SUCCEEDS, returning the (degenerate) volume 0: the
code only rejects `D < 0` (strict). -/
theorem C4_lattice_counterexample :
    latticeD 0 (Real.pi / 2) (Real.pi / 2) ≤ 0 ∧
    check_lattice_param 1 1 1 0 (Real.pi / 2) (Real.pi / 2) = some 0 := by
  have hD0 : latticeD 0 (Real.pi / 2) (Real.pi / 2) = 0 := by
    rw [latticeD, Real.cos_pi_div_two, Real.cos_zero]
    norm_num
  refine ⟨le_of_eq hD0, ?_⟩
  rw [check_lattice_param, if_neg (by rw [hD0]; norm_num), hD0,
    Real.sqrt_zero]
  norm_num

/-- C4 witness: at the cubic lattice `a = b = c = 1`, `α = β = γ = π/2`
the discriminant is `D = 1 > 0` and the theorem produces the exact inverse
pair. -/
theorem C4_lattice_amended_witness :
    0 < latticeD (Real.pi / 2) (Real.pi / 2) (Real.pi / 2) ∧
    (∃ B Binv,
      hkl_lattice_get_B 1 1 1 (Real.pi / 2) (Real.pi / 2) (Real.pi / 2)
        = some B ∧
      hkl_lattice_get_1_B 1 1 1 (Real.pi / 2) (Real.pi / 2) (Real.pi / 2)
        = some Binv ∧
      Binv * B = 1) := by
  have hD : 0 < latticeD (Real.pi / 2) (Real.pi / 2) (Real.pi / 2) := by
    rw [latticeD, Real.cos_pi_div_two]
    norm_num
  exact ⟨hD,
    (C4_lattice_amended 1 1 1 (Real.pi / 2) (Real.pi / 2) (Real.pi / 2)).2.2
      hD one_ne_zero one_ne_zero one_ne_zero⟩

lemma mem_geometry_list_add {items : List HklGeometry} {g x : HklGeometry}
    (hx : x ∈ hkl_geometry_list_add items g) : x ∈ items ∨ x = g := by
  rw [hkl_geometry_list_add] at hx
  split at hx
  · exact Or.inl hx
  · rcases List.mem_append.mp hx with h | h
    · exact Or.inl h
    · exact Or.inr (List.mem_singleton.mp h)

lemma geometry_list_add_pairwise (κ : List Bool)
    (items : List HklGeometry) (g : HklGeometry)
    (hki : ∀ x ∈ items, x.axes.map isRotationAxis = κ)
    (hkg : g.axes.map isRotationAxis = κ)
    (hp : items.Pairwise
      (fun a b => HKL_EPSILON ≤ hkl_geometry_distance_orthodromic a b)) :
    (hkl_geometry_list_add items g).Pairwise
      (fun a b => HKL_EPSILON ≤ hkl_geometry_distance_orthodromic a b) := by
  rw [hkl_geometry_list_add]
  split
  · exact hp
  next hno =>
    push_neg at hno
    rw [List.pairwise_append]
    refine ⟨hp, List.pairwise_singleton _ _, ?_⟩
    intro x hx y hy
    rw [List.mem_singleton] at hy
    subst hy
    have h1 : HKL_EPSILON ≤ hkl_geometry_distance_orthodromic y x :=
      hno x hx
    rw [geometry_distance_orthodromic_symm x y
      ((hki x hx).trans hkg.symm)]
    exact h1

lemma foldl_add_pairwise (κ : List Bool) :
    ∀ (gs acc : List HklGeometry),
      (∀ x ∈ acc, x.axes.map isRotationAxis = κ) →
      (∀ x ∈ gs, x.axes.map isRotationAxis = κ) →
      acc.Pairwise
        (fun a b => HKL_EPSILON ≤ hkl_geometry_distance_orthodromic a b) →
      (gs.foldl hkl_geometry_list_add acc).Pairwise
        (fun a b => HKL_EPSILON ≤ hkl_geometry_distance_orthodromic a b) ∧
      (∀ x ∈ gs.foldl hkl_geometry_list_add acc,
        x.axes.map isRotationAxis = κ)
  | [], acc, ha, _, hp => ⟨hp, ha⟩
  | g :: gs, acc, ha, hg, hp => by
      simp only [List.foldl_cons]
      refine foldl_add_pairwise κ gs (hkl_geometry_list_add acc g) ?_ ?_ ?_
      · intro x hx
        rcases mem_geometry_list_add hx with h | h
        · exact ha x h
        · subst h; exact hg x (List.mem_cons_self x gs)
      · exact fun x hx => hg x (List.mem_cons_of_mem g hx)
      · exact geometry_list_add_pairwise κ acc g ha
          (hg g (List.mem_cons_self g gs)) hp

/-- C3, amended: the pairwise-separation invariant holds for the
insertions performed by `hkl_geometry_list_add` (starting from the empty
list), with `≥ HKL_EPSILON` rather than `>`: any two distinct items of the
resulting list are at orthodromic distance at least `HKL_EPSILON`.  It
does NOT survive `hkl_geometry_list_multiply_from_range`, whose `perm_r`
appends 2π-shifted items without the separation check (see the
counterexample, where two items end up at orthodromic distance 0). -/
theorem C3_separation_amended (κ : List Bool) (gs : List HklGeometry)
    (h : ∀ g ∈ gs, g.axes.map isRotationAxis = κ) :
    ∀ i j (hi : i < (gs.foldl hkl_geometry_list_add []).length)
        (hj : j < (gs.foldl hkl_geometry_list_add []).length), i ≠ j →
      HKL_EPSILON ≤ hkl_geometry_distance_orthodromic
        ((gs.foldl hkl_geometry_list_add []).get ⟨i, hi⟩)
        ((gs.foldl hkl_geometry_list_add []).get ⟨j, hj⟩) := by
  obtain ⟨hp, hκ⟩ := foldl_add_pairwise κ gs [] (by simp) h List.Pairwise.nil
  have hpg := List.pairwise_iff_get.mp hp
  intro i j hi hj hne
  rcases lt_trichotomy i j with hij | hij | hij
  · exact hpg ⟨i, hi⟩ ⟨j, hj⟩ hij
  · exact absurd hij hne
  · have h1 := hpg ⟨j, hj⟩ ⟨i, hi⟩ hij
    rw [geometry_distance_orthodromic_symm _ _
      ((hκ _ (List.get_mem _ _ _)).trans (hκ _ (List.get_mem _ _ _)).symm)]
    exact h1

/-- C3 witness: the theorem applied to the two-translation-axis list
`[gT 0, gT 1]` (kind vector `[false]`). -/
theorem C3_separation_amended_witness :
    (∀ g ∈ [gT 0, gT 1], g.axes.map isRotationAxis = [false]) ∧
    (∀ i j (hi : i < (([gT 0, gT 1]).foldl hkl_geometry_list_add []).length)
        (hj : j < (([gT 0, gT 1]).foldl hkl_geometry_list_add []).length),
        i ≠ j →
      HKL_EPSILON ≤ hkl_geometry_distance_orthodromic
        ((([gT 0, gT 1]).foldl hkl_geometry_list_add []).get ⟨i, hi⟩)
        ((([gT 0, gT 1]).foldl hkl_geometry_list_add []).get ⟨j, hj⟩)) := by
  have h : ∀ g ∈ [gT 0, gT 1], g.axes.map isRotationAxis = [false] := by
    intro g hg
    rcases List.mem_cons.mp hg with h1 | h1
    · subst h1; rfl
    · rw [List.mem_singleton.mp h1]; rfl
  exact ⟨h, C3_separation_amended [false] [gT 0, gT 1] h⟩

lemma pPerm_is_permutable : hkl_parameter_is_permutable pPerm := by
  constructor
  · rfl
  · show 2 * Real.pi < (2 * Real.pi + 1) - 0
    norm_num

lemma pPerm_smallest : hkl_parameter_value_set_smallest_in_range pPerm = pPerm := by
  rw [hkl_parameter_value_set_smallest_in_range]
  have he : pPerm._value
      - 2 * Real.pi * ⌊(pPerm._value - pPerm.min) / (2 * Real.pi)⌋
      = pPerm._value := by
    show (0 : ℝ) - 2 * Real.pi * ⌊((0 : ℝ) - 0) / (2 * Real.pi)⌋ = 0
    norm_num
  rw [he]

lemma pPerm_steps : perm_steps pPerm = 1 := by
  rw [perm_steps]
  have hfl : ⌊(pPerm.max + HKL_EPSILON - pPerm._value) / (2 * Real.pi)⌋
      = (1 : ℤ) := by
    rw [Int.floor_eq_iff]
    constructor
    · show ((1 : ℤ) : ℝ) ≤ _
      push_cast
      rw [le_div_iff two_pi_pos]
      show 1 * (2 * Real.pi) ≤ (2 * Real.pi + 1) + HKL_EPSILON - 0
      rw [HKL_EPSILON]
      norm_num
      linarith [Real.pi_pos]
    · rw [div_lt_iff two_pi_pos]
      show (2 * Real.pi + 1) + HKL_EPSILON - 0 < ((1 : ℤ) + 1) * (2 * Real.pi)
      rw [HKL_EPSILON]
      push_cast
      have hpi := Real.pi_gt_three
      nlinarith
  rw [hfl]
  rfl

lemma pPerm_values : perm_values pPerm = [0, 2 * Real.pi] := by
  rw [perm_values, pPerm_steps]
  rw [show List.range 2 = [0, 1] from rfl]
  rw [List.map_cons, List.map_cons, List.map_nil]
  have h0 : pPerm._value + 2 * Real.pi * ((0 : ℕ) : ℝ) = 0 := by
    show (0 : ℝ) + 2 * Real.pi * ((0 : ℕ) : ℝ) = 0
    push_cast
    ring
  have h1 : pPerm._value + 2 * Real.pi * ((1 : ℕ) : ℝ) = 2 * Real.pi := by
    show (0 : ℝ) + 2 * Real.pi * ((1 : ℕ) : ℝ) = 2 * Real.pi
    push_cast
    ring
  rw [h0, h1]

lemma pPerm_perm_r : perm_r_values [pPerm] = [[0], [2 * Real.pi]] := by
  rw [perm_r_values, if_pos pPerm_is_permutable, pPerm_values]
  rw [perm_r_values]
  rfl

lemma gPerm_distance_self : hkl_geometry_distance (set_axes_values gPerm [0]) gPerm = 0 := by
  show (List.zipWith (fun p q => |q._value - p._value|) [pPerm] [pPerm]).sum = 0
  show |pPerm._value - pPerm._value| + 0 = 0
  simp

lemma gPerm_distance_shift :
    hkl_geometry_distance (set_axes_values gPerm [2 * Real.pi]) gPerm = 2 * Real.pi := by
  show (List.zipWith (fun p q => |q._value - p._value|) gPerm2.axes [pPerm]).sum
      = 2 * Real.pi
  show |pPerm._value - (2 * Real.pi)| + 0 = 2 * Real.pi
  show |(0 : ℝ) - 2 * Real.pi| + 0 = 2 * Real.pi
  rw [zero_sub, abs_neg, abs_of_pos two_pi_pos, add_zero]

lemma gPerm_multiply_item : multiply_from_range_item gPerm = [gPerm2] := by
  have hG : ({ gPerm with axes := gPerm.axes.map (fun p =>
      if hkl_parameter_is_permutable p then
        hkl_parameter_value_set_smallest_in_range p
      else p) } : HklGeometry) = gPerm := by
    have hmap : gPerm.axes.map (fun p =>
        if hkl_parameter_is_permutable p then
          hkl_parameter_value_set_smallest_in_range p
        else p) = gPerm.axes := by
      show [pPerm].map _ = [pPerm]
      rw [List.map_cons, List.map_nil, if_pos pPerm_is_permutable, pPerm_smallest]
    rw [hmap]
  have hmap2 : List.map (fun p =>
      if hkl_parameter_is_permutable p then
        hkl_parameter_value_set_smallest_in_range p
      else p) [pPerm] = [pPerm] := by
    rw [List.map_cons, List.map_nil, if_pos pPerm_is_permutable, pPerm_smallest]
  rw [multiply_from_range_item]
  simp only [hG]
  rw [show gPerm.axes = [pPerm] from rfl, hmap2, pPerm_perm_r]
  rw [List.filterMap_cons, List.filterMap_cons, List.filterMap_nil]
  simp only [gPerm_distance_self, gPerm_distance_shift]
  rw [if_neg (by rw [HKL_EPSILON]; norm_num : ¬ (HKL_EPSILON < (0 : ℝ)))]
  rw [if_pos (by rw [HKL_EPSILON]; have := Real.pi_gt_three; nlinarith :
    HKL_EPSILON < 2 * Real.pi)]
  rw [show set_axes_values gPerm [2 * Real.pi] = gPerm2 from rfl]

/-- C3, counterexample: starting from the singleton list `[gPerm]` (one
rotation axis, value 0, range `[0, 2π + 1]`),
`hkl_geometry_list_multiply_from_range` appends the 2π-shifted solution
`gPerm2` WITHOUT any orthodromic de-duplication: the resulting list holds
two distinct items at orthodromic distance 0 (equal modulo 2π), violating
the claimed `∀ i ≠ j, distance_orthodromic > ε` invariant. -/
theorem C3_separation_counterexample :
    hkl_geometry_list_multiply_from_range [gPerm] = [gPerm, gPerm2] ∧
    hkl_geometry_distance_orthodromic gPerm gPerm2 = 0 ∧
    ¬ (HKL_EPSILON < hkl_geometry_distance_orthodromic gPerm gPerm2) := by
  have hdist : hkl_geometry_distance_orthodromic gPerm gPerm2 = 0 := by
    rw [hkl_geometry_distance_orthodromic]
    show (List.zipWith (fun p q => hkl_parameter_orthodromic_distance_get p q._value)
      [pPerm] gPerm2.axes).sum = 0
    have : hkl_parameter_orthodromic_distance_get pPerm (2 * Real.pi) = 0 := by
      rw [hkl_parameter_orthodromic_distance_get]
      show |angle_restrict_symm (2 * Real.pi - pPerm._value)| = 0
      rw [show (2 * Real.pi - pPerm._value) = 2 * Real.pi from by
        show 2 * Real.pi - 0 = 2 * Real.pi; ring]
      exact abs_angle_restrict_symm_two_pi
    show hkl_parameter_orthodromic_distance_get pPerm (2 * Real.pi) + 0 = 0
    rw [this, add_zero]
  refine ⟨?_, hdist, by rw [hdist, HKL_EPSILON]; norm_num⟩
  rw [hkl_geometry_list_multiply_from_range]
  simp only [List.flatMap_cons, List.flatMap_nil, List.append_nil,
    gPerm_multiply_item]
  rfl

/-- The clamped round used by the closest-value search minimizes the
distance to `t` over the integers of `[kmin, kmax]`. -/
lemma clamp_round_le (t : ℝ) (kmin kmax k : ℤ) (h1 : kmin ≤ k) (h2 : k ≤ kmax) :
    |((max kmin (min kmax (round t)) : ℤ) : ℝ) - t| ≤ |(k : ℝ) - t| := by
  rcases le_or_lt (round t) kmax with hr1 | hr1
  · rcases le_or_lt kmin (round t) with hr2 | hr2
    · rw [show max kmin (min kmax (round t)) = round t from by omega]
      calc |((round t : ℤ) : ℝ) - t| = |t - round t| := abs_sub_comm _ _
        _ ≤ |t - k| := round_le t k
        _ = |(k : ℝ) - t| := abs_sub_comm _ _
    · rw [show max kmin (min kmax (round t)) = kmin from by omega]
      have h3 : (round t : ℝ) ≤ (kmin : ℝ) - 1 := by
        exact_mod_cast (by omega : round t ≤ kmin - 1)
      have hrt : t - 1 / 2 < (round t : ℝ) := sub_half_lt_round t
      have h4 : t < (kmin : ℝ) - 1 / 2 := by linarith
      have h5 : (kmin : ℝ) ≤ (k : ℝ) := by exact_mod_cast h1
      rw [abs_of_nonneg (by linarith : (0 : ℝ) ≤ (kmin : ℝ) - t),
        abs_of_nonneg (by linarith : (0 : ℝ) ≤ (k : ℝ) - t)]
      linarith
  · rw [show max kmin (min kmax (round t)) = kmax from by omega]
    have h3 : (kmax : ℝ) + 1 ≤ (round t : ℝ) := by
      exact_mod_cast (by omega : kmax + 1 ≤ round t)
    have hrt : (round t : ℝ) ≤ t + 1 / 2 := round_le_add_half t
    have h4 : (kmax : ℝ) + 1 / 2 ≤ t := by linarith
    have h5 : (k : ℝ) ≤ (kmax : ℝ) := by exact_mod_cast h2
    rw [abs_of_nonpos (by linarith : (kmax : ℝ) - t ≤ 0),
      abs_of_nonpos (by linarith : (k : ℝ) - t ≤ 0)]
    linarith

/-- Specification of the rotation branch of
`hkl_parameter_value_get_closest`: the returned value is a 2π-equivalent
representative of the parameter's own value, lies inside `[min, max]`, and
among all in-range representatives it is nearest to the reference
parameter's value. -/
lemma value_get_closest_rotation_spec (p r : HklParameter) (v : ℝ)
    (hrot : isRotationAxis p = true)
    (h : hkl_parameter_value_get_closest p r = some v) :
    p.min ≤ v ∧ v ≤ p.max ∧
    (∃ k : ℤ, v = p._value + 2 * Real.pi * k) ∧
    (∀ k : ℤ, p.min ≤ p._value + 2 * Real.pi * k →
      p._value + 2 * Real.pi * k ≤ p.max →
      |v - r._value| ≤ |p._value + 2 * Real.pi * k - r._value|) := by
  obtain ⟨pn, pv, pmn, pmx, pt⟩ := p
  rcases pt with w | w | _ <;>
    [skip;
     exact absurd hrot (by rw [isRotationAxis]; simp);
     exact absurd hrot (by rw [isRotationAxis]; simp)]
  unfold hkl_parameter_value_get_closest at h
  dsimp only at h ⊢
  by_cases hk : (⌊(pmx - pv) / (2 * Real.pi)⌋ : ℤ)
      < ⌈(pmn - pv) / (2 * Real.pi)⌉
  · rw [if_pos hk] at h
    exact absurd h (by simp)
  · rw [if_neg hk] at h
    have hv : v = pv + 2 * Real.pi *
        ((max ⌈(pmn - pv) / (2 * Real.pi)⌉
          (min ⌊(pmx - pv) / (2 * Real.pi)⌋
            (round ((r._value - pv) / (2 * Real.pi)))) : ℤ) : ℝ) :=
      (Option.some.injEq _ _ ▸ h).symm
    set kmin : ℤ := ⌈(pmn - pv) / (2 * Real.pi)⌉ with hkmin
    set kmax : ℤ := ⌊(pmx - pv) / (2 * Real.pi)⌋ with hkmax
    set K : ℤ := max kmin (min kmax (round ((r._value - pv) / (2 * Real.pi))))
      with hK
    have hKmin : kmin ≤ K := le_max_left _ _
    have hKmax : K ≤ kmax := max_le (not_lt.mp hk) (min_le_left _ _)
    have hmin : pmn ≤ v := by
      rw [hv]
      have hc : (pmn - pv) / (2 * Real.pi) ≤ (kmin : ℝ) := Int.le_ceil _
      have hc2 : (kmin : ℝ) ≤ (K : ℝ) := by exact_mod_cast hKmin
      have h6 := (div_le_iff two_pi_pos).mp (hc.trans hc2)
      linarith
    have hmax : v ≤ pmx := by
      rw [hv]
      have hc2 : (K : ℝ) ≤ (kmax : ℝ) := by exact_mod_cast hKmax
      have hf : (kmax : ℝ) ≤ (pmx - pv) / (2 * Real.pi) := Int.floor_le _
      have h6 := (le_div_iff two_pi_pos).mp (hc2.trans hf)
      linarith
    refine ⟨hmin, hmax, ⟨K, hv⟩, ?_⟩
    intro k hklo hkhi
    have hk1 : kmin ≤ k := by
      rw [hkmin, Int.ceil_le, div_le_iff two_pi_pos]
      linarith
    have hk2 : k ≤ kmax := by
      rw [hkmax, Int.le_floor, le_div_iff two_pi_pos]
      linarith
    set t : ℝ := (r._value - pv) / (2 * Real.pi) with ht
    have htv : ∀ m : ℤ, pv + 2 * Real.pi * m - r._value
        = 2 * Real.pi * ((m : ℝ) - t) := by
      intro m
      rw [ht]
      field_simp
      ring
    have habs : ∀ m : ℤ, |2 * Real.pi * ((m : ℝ) - t)|
        = (2 * Real.pi) * |(m : ℝ) - t| := by
      intro m
      rw [abs_mul, abs_of_pos two_pi_pos]
    rw [hv, htv K, htv k, habs K, habs k]
    exact mul_le_mul_of_nonneg_left (clamp_round_le t kmin kmax k hk1 hk2)
      (le_of_lt two_pi_pos)

/-- C7, amended: `hkl_geometry_closest_from_geometry_with_range` is
atomic — on failure (`ko = TRUE`, some axis has no in-range
representative) NO axis is mutated; on success every axis value becomes
`hkl_parameter_value_get_closest` of that axis, which for a rotation is
the 2π-equivalent representative of the axis's OWN current value (not of
the reference value — see the counterexample) lying inside its `[min,max]`
and nearest to the reference axis value. -/
theorem C7_closest_from_amended (self ref : HklGeometry)
    (hlen : self.axes.length = ref.axes.length) :
    ((hkl_geometry_closest_from_geometry_with_range self ref).1 = true →
      (hkl_geometry_closest_from_geometry_with_range self ref).2 = self) ∧
    ((hkl_geometry_closest_from_geometry_with_range self ref).1 = false →
      (hkl_geometry_closest_from_geometry_with_range self ref).2.axes.length
          = self.axes.length ∧
      ∀ i (hi : i < self.axes.length) (hir : i < ref.axes.length)
        (hi2 : i < (hkl_geometry_closest_from_geometry_with_range self
            ref).2.axes.length),
        ∃ v,
          hkl_parameter_value_get_closest (self.axes.get ⟨i, hi⟩)
            (ref.axes.get ⟨i, hir⟩) = some v ∧
          ((hkl_geometry_closest_from_geometry_with_range self ref).2.axes.get
            ⟨i, hi2⟩)._value = v ∧
          (isRotationAxis (self.axes.get ⟨i, hi⟩) = true →
            (self.axes.get ⟨i, hi⟩).min ≤ v ∧
            v ≤ (self.axes.get ⟨i, hi⟩).max ∧
            (∃ k : ℤ, v = (self.axes.get ⟨i, hi⟩)._value + 2 * Real.pi * k) ∧
            ∀ k : ℤ,
              (self.axes.get ⟨i, hi⟩).min
                ≤ (self.axes.get ⟨i, hi⟩)._value + 2 * Real.pi * k →
              (self.axes.get ⟨i, hi⟩)._value + 2 * Real.pi * k
                ≤ (self.axes.get ⟨i, hi⟩).max →
              |v - (ref.axes.get ⟨i, hir⟩)._value|
                ≤ |(self.axes.get ⟨i, hi⟩)._value + 2 * Real.pi * k
                    - (ref.axes.get ⟨i, hir⟩)._value|)) := by
  rw [hkl_geometry_closest_from_geometry_with_range]
  by_cases hnone : none ∈ List.zipWith hkl_parameter_value_get_closest
      self.axes ref.axes
  · rw [if_pos hnone]
    exact ⟨fun _ => rfl, fun hf => absurd hf (by simp)⟩
  · rw [if_neg hnone]
    refine ⟨fun ht => absurd ht (by simp), fun _ => ?_⟩
    constructor
    · simp [List.length_zipWith, hlen]
    · intro i hi hir hi2
      have hvlen : i < (List.zipWith hkl_parameter_value_get_closest
          self.axes ref.axes).length := by
        simp [List.length_zipWith, hlen]
        omega
      have hv0 : (List.zipWith hkl_parameter_value_get_closest
          self.axes ref.axes).get ⟨i, hvlen⟩
          = hkl_parameter_value_get_closest (self.axes.get ⟨i, hi⟩)
            (ref.axes.get ⟨i, hir⟩) := by
        rw [List.get_eq_getElem, List.getElem_zipWith]
        rfl
      have hsome : hkl_parameter_value_get_closest (self.axes.get ⟨i, hi⟩)
          (ref.axes.get ⟨i, hir⟩) ≠ none := by
        intro hcontr
        have hmem := List.get_mem (List.zipWith hkl_parameter_value_get_closest
          self.axes ref.axes) i hvlen
        rw [hv0, hcontr] at hmem
        exact hnone hmem
      obtain ⟨v, hv⟩ := Option.ne_none_iff_exists'.mp hsome
      refine ⟨v, hv, ?_, ?_⟩
      · show (((List.zipWith
            (fun p w => ({ p with _value := w.getD p._value } : HklParameter))
            self.axes (List.zipWith hkl_parameter_value_get_closest
              self.axes ref.axes)).get ⟨i, hi2⟩))._value = v
        rw [List.get_eq_getElem, List.getElem_zipWith]
        show (((List.zipWith hkl_parameter_value_get_closest
            self.axes ref.axes)).get ⟨i, hvlen⟩).getD _ = v
        rw [hv0, hv]
        rfl
      · intro hrot
        exact value_get_closest_rotation_spec _ _ v hrot hv

/-- C7 witness: the theorem applied to the pair of one-translation-axis
geometries `gT 1`, `gT 0` (equal axis counts); the operation succeeds and
copies nothing but the own value. -/
theorem C7_closest_from_amended_witness :
    (gT 1).axes.length = (gT 0).axes.length ∧
    (((hkl_geometry_closest_from_geometry_with_range (gT 1) (gT 0)).1 = true →
      (hkl_geometry_closest_from_geometry_with_range (gT 1) (gT 0)).2 = gT 1) ∧
     ((hkl_geometry_closest_from_geometry_with_range (gT 1) (gT 0)).1 = false →
      (hkl_geometry_closest_from_geometry_with_range (gT 1)
          (gT 0)).2.axes.length = (gT 1).axes.length ∧
      ∀ i (hi : i < (gT 1).axes.length) (hir : i < (gT 0).axes.length)
        (hi2 : i < (hkl_geometry_closest_from_geometry_with_range (gT 1)
            (gT 0)).2.axes.length),
        ∃ v,
          hkl_parameter_value_get_closest ((gT 1).axes.get ⟨i, hi⟩)
            ((gT 0).axes.get ⟨i, hir⟩) = some v ∧
          ((hkl_geometry_closest_from_geometry_with_range (gT 1)
              (gT 0)).2.axes.get ⟨i, hi2⟩)._value = v ∧
          (isRotationAxis ((gT 1).axes.get ⟨i, hi⟩) = true →
            ((gT 1).axes.get ⟨i, hi⟩).min ≤ v ∧
            v ≤ ((gT 1).axes.get ⟨i, hi⟩).max ∧
            (∃ k : ℤ, v = ((gT 1).axes.get ⟨i, hi⟩)._value + 2 * Real.pi * k) ∧
            ∀ k : ℤ,
              ((gT 1).axes.get ⟨i, hi⟩).min
                ≤ ((gT 1).axes.get ⟨i, hi⟩)._value + 2 * Real.pi * k →
              ((gT 1).axes.get ⟨i, hi⟩)._value + 2 * Real.pi * k
                ≤ ((gT 1).axes.get ⟨i, hi⟩).max →
              |v - ((gT 0).axes.get ⟨i, hir⟩)._value|
                ≤ |((gT 1).axes.get ⟨i, hi⟩)._value + 2 * Real.pi * k
                    - ((gT 0).axes.get ⟨i, hir⟩)._value|))) :=
  ⟨rfl, C7_closest_from_amended (gT 1) (gT 0) rfl⟩

lemma pClosest_closest_value :
    hkl_parameter_value_get_closest pClosestSelf pClosestRef
      = some (5 * Real.pi / 9) := by
  rw [pClosestSelf, pClosestRef]
  unfold hkl_parameter_value_get_closest
  dsimp only
  have h1 : (-(3 * Real.pi) / 2 - 5 * Real.pi / 9) / (2 * Real.pi)
      = -(37 / 36) := by
    have hpi := Real.pi_ne_zero
    field_simp
    ring
  have h2 : (Real.pi - 5 * Real.pi / 9) / (2 * Real.pi) = 2 / 9 := by
    have hpi := Real.pi_ne_zero
    field_simp
    ring
  have h3 : (-(5 * Real.pi) / 12 - 5 * Real.pi / 9) / (2 * Real.pi)
      = -(35 / 72) := by
    have hpi := Real.pi_ne_zero
    field_simp
    ring
  rw [h1, h2, h3]
  rw [show ⌈(-(37 / 36) : ℝ)⌉ = (-1 : ℤ) from by
    rw [Int.ceil_eq_iff] <;> norm_num]
  rw [show ⌊(2 / 9 : ℝ)⌋ = (0 : ℤ) from by
    rw [Int.floor_eq_iff] <;> norm_num]
  rw [show round (-(35 / 72) : ℝ) = (0 : ℤ) from by
    rw [round_eq_zero_iff]
    constructor <;> norm_num]
  rw [if_neg (by norm_num : ¬ ((0 : ℤ) < -1))]
  rw [show (max (-1 : ℤ) (min 0 0) : ℤ) = 0 from by norm_num]
  norm_num

/-- C7, counterexample: the claim states each axis is set to the
2π-equivalent representative of the REFERENCE axis value.  With the
`get_value_closest` test data of `tests/hkl-axis-t.c` (self value 100°,
range [-270°, 180°], reference value -75°, in radians), the operation
succeeds and sets the axis to 100° = 5π/9 — a representative of the
axis's OWN value — which is NOT congruent to the reference value -75°
modulo 2π (the reference's own representative -75° lies in range, yet is
not chosen). -/
theorem C7_closest_from_counterexample :
    hkl_geometry_closest_from_geometry_with_range gClosestSelf gClosestRef
      = (false, gClosestSelf) ∧
    pClosestSelf._value = 5 * Real.pi / 9 ∧
    ¬ ∃ k : ℤ, pClosestSelf._value = pClosestRef._value + 2 * Real.pi * k := by
  refine ⟨?_, rfl, ?_⟩
  · rw [hkl_geometry_closest_from_geometry_with_range]
    have hvals : List.zipWith hkl_parameter_value_get_closest
        gClosestSelf.axes gClosestRef.axes = [some (5 * Real.pi / 9)] := by
      show List.zipWith hkl_parameter_value_get_closest
        [pClosestSelf] [pClosestRef] = _
      rw [List.zipWith_cons_cons, List.zipWith_nil_right,
        pClosest_closest_value]
    rw [hvals]
    rw [if_neg (by simp : ¬ ((none : Option ℝ) ∈ [some (5 * Real.pi / 9)]))]
    rfl
  · rintro ⟨k, hk⟩
    have hk2 : (5 : ℝ) * Real.pi / 9
        = -(5 * Real.pi) / 12 + 2 * Real.pi * k := hk
    have h1 : (5 / 9 : ℝ) * Real.pi = (-(5 / 12) + 2 * (k : ℝ)) * Real.pi := by
      ring_nf
      ring_nf at hk2
      linarith
    have h2 : (5 / 9 : ℝ) = -(5 / 12) + 2 * (k : ℝ) :=
      mul_right_cancel₀ Real.pi_ne_zero h1
    have h3 : (72 : ℝ) * (k : ℝ) = 35 := by linarith
    have h4 : (72 : ℤ) * k = 35 := by exact_mod_cast h3
    omega

end Hkl
